import Mathlib

/-!
Verification of the pure FLAC encoder in `pkg/flacenc` of
`formeo/go-audio-converter`.

The Go source `pkg/flacenc/encoder.go` is shallowly embedded below.  Bytes
are `Nat` values below 256, samples are `Int` values (the Go `int32` type;
wrap-around of the 32-bit arithmetic is made explicit through `wrap32`).
The `BitWriter` type used by the encoder is not part of the provided
sources (only its tests and callers are), so it is modelled from the
specification, section 4.1.  The `crypto/md5` digest from the Go standard
library is embedded as the full MD5 algorithm (RFC 1321) over byte lists.
-/

set_option maxRecDepth 20000

namespace Flacenc

/-- Little-endian 4-byte encoding of the low 32 bits of a natural number. -/
def le4 (x : Nat) : List Nat :=
  [x % 256, x / 2 ^ 8 % 256, x / 2 ^ 16 % 256, x / 2 ^ 24 % 256]

/-- MD5 round constants, `K[i] = floor(2^32 * abs(sin(i+1)))` (RFC 1321). -/
def md5K : List Nat :=
  [0xd76aa478, 0xe8c7b756, 0x242070db, 0xc1bdceee,
   0xf57c0faf, 0x4787c62a, 0xa8304613, 0xfd469501,
   0x698098d8, 0x8b44f7af, 0xffff5bb1, 0x895cd7be,
   0x6b901122, 0xfd987193, 0xa679438e, 0x49b40821,
   0xf61e2562, 0xc040b340, 0x265e5a51, 0xe9b6c7aa,
   0xd62f105d, 0x02441453, 0xd8a1e681, 0xe7d3fbc8,
   0x21e1cde6, 0xc33707d6, 0xf4d50d87, 0x455a14ed,
   0xa9e3e905, 0xfcefa3f8, 0x676f02d9, 0x8d2a4c8a,
   0xfffa3942, 0x8771f681, 0x6d9d6122, 0xfde5380c,
   0xa4beea44, 0x4bdecfa9, 0xf6bb4b60, 0xbebfbc70,
   0x289b7ec6, 0xeaa127fa, 0xd4ef3085, 0x04881d05,
   0xd9d4d039, 0xe6db99e5, 0x1fa27cf8, 0xc4ac5665,
   0xf4292244, 0x432aff97, 0xab9423a7, 0xfc93a039,
   0x655b59c3, 0x8f0ccc92, 0xffeff47d, 0x85845dd1,
   0x6fa87e4f, 0xfe2ce6e0, 0xa3014314, 0x4e0811a1,
   0xf7537e82, 0xbd3af235, 0x2ad7d2bb, 0xeb86d391]

/-- MD5 per-round left-rotation amounts (RFC 1321). -/
def md5S : List Nat :=
  [7, 12, 17, 22, 7, 12, 17, 22, 7, 12, 17, 22, 7, 12, 17, 22,
   5, 9, 14, 20, 5, 9, 14, 20, 5, 9, 14, 20, 5, 9, 14, 20,
   4, 11, 16, 23, 4, 11, 16, 23, 4, 11, 16, 23, 4, 11, 16, 23,
   6, 10, 15, 21, 6, 10, 15, 21, 6, 10, 15, 21, 6, 10, 15, 21]

/-- Bitwise complement within 32 bits (for arguments below `2^32`). -/
def not32 (x : Nat) : Nat := 2 ^ 32 - 1 - x

/-- Left rotation of a 32-bit word. -/
def rotl32 (x s : Nat) : Nat :=
  ((x <<< s) % 2 ^ 32) ||| (x >>> (32 - s))

/-- The MD5 nonlinear function for round `i`. -/
def md5F (i b c d : Nat) : Nat :=
  if i < 16 then (b &&& c) ||| (not32 b &&& d)
  else if i < 32 then (d &&& b) ||| (not32 d &&& c)
  else if i < 48 then b ^^^ c ^^^ d
  else c ^^^ (b ||| not32 d)

/-- The MD5 message-word index for round `i`. -/
def md5G (i : Nat) : Nat :=
  if i < 16 then i
  else if i < 32 then (5 * i + 1) % 16
  else if i < 48 then (3 * i + 5) % 16
  else (7 * i) % 16

/-- MD5 padding: append `0x80`, zero bytes up to 56 mod 64, then the
bit length as a 64-bit little-endian quantity. -/
def md5Pad (msg : List Nat) : List Nat :=
  let L := msg.length
  let z := (120 - (L + 1) % 64) % 64
  msg ++ [0x80] ++ List.replicate z 0 ++
    le4 (L * 8 % 2 ^ 32) ++ le4 (L * 8 / 2 ^ 32 % 2 ^ 32)

/-- Word `j` of a 64-byte MD5 chunk, assembled little-endian. -/
def md5Word (chunk : List Nat) (j : Nat) : Nat :=
  chunk.getD (4 * j) 0 + 2 ^ 8 * chunk.getD (4 * j + 1) 0 +
    2 ^ 16 * chunk.getD (4 * j + 2) 0 + 2 ^ 24 * chunk.getD (4 * j + 3) 0

/-- Process one 64-byte chunk of the MD5 computation. -/
def md5Chunk (st : Nat × Nat × Nat × Nat) (chunk : List Nat) :
    Nat × Nat × Nat × Nat :=
  let r := (List.range 64).foldl
    (fun (p : Nat × Nat × Nat × Nat) i =>
      let f := (md5F i p.2.1 p.2.2.1 p.2.2.2 + p.1 + md5K.getD i 0 +
        md5Word chunk (md5G i)) % 2 ^ 32
      (p.2.2.2, (p.2.1 + rotl32 f (md5S.getD i 0)) % 2 ^ 32, p.2.1, p.2.2.1))
    st
  ((st.1 + r.1) % 2 ^ 32, (st.2.1 + r.2.1) % 2 ^ 32,
   (st.2.2.1 + r.2.2.1) % 2 ^ 32, (st.2.2.2 + r.2.2.2) % 2 ^ 32)

/-- MD5 digest of a byte list, as 16 bytes (RFC 1321); this embeds the
`crypto/md5` hash applied by `Encode` to the raw PCM bytes. -/
def md5 (msg : List Nat) : List Nat :=
  let p := md5Pad msg
  let st := (List.range (p.length / 64)).foldl
    (fun st i => md5Chunk st ((p.drop (64 * i)).take 64))
    (0x67452301, 0xefcdab89, 0x98badcfe, 0x10325476)
  le4 st.1 ++ le4 st.2.1 ++ le4 st.2.2.1 ++ le4 st.2.2.2

/-- Sanity anchor: MD5 of the empty message (RFC 1321 test suite). -/
theorem md5_rfc_empty :
    md5 [] = [0xd4, 0x1d, 0x8c, 0xd9, 0x8f, 0x00, 0xb2, 0x04,
              0xe9, 0x80, 0x09, 0x98, 0xec, 0xf8, 0x42, 0x7e] := by
  decide

/-- Sanity anchor: MD5 of the ASCII string consisting of the three bytes
of "abc" (RFC 1321 test suite). -/
theorem md5_rfc_abc :
    md5 [97, 98, 99] = [0x90, 0x01, 0x50, 0x98, 0x3c, 0xd2, 0x4f, 0xb0,
                        0xd6, 0x96, 0x3f, 0x7d, 0x28, 0xe1, 0x7f, 0x72] := by
  decide

/-- The MD5 digest always has 16 bytes. -/
theorem md5_length (msg : List Nat) : (md5 msg).length = 16 := by
  simp [md5, le4]

/-! ### BitWriter

The `BitWriter` type of package `flacenc` is referenced by
`encoder.go` and its tests but its defining file is not among the
provided sources, so it is modelled from the specification (section 4.1):
an MSB-first bit-packing writer over a byte sink with two running CRC
accumulators (CRC-8 poly 0x07 and CRC-16 poly 0x8005, both init 0,
unreflected) that advance with every emitted byte. -/

/-- Modelled from the spec: CRC-8 update for one byte, polynomial 0x07,
no reflection, no final xor. -/
def crc8Update (c b : Nat) : Nat :=
  (List.range 8).foldl
    (fun acc _ => if 128 ≤ acc then (acc * 2 ^^^ 0x07) % 256 else acc * 2 % 256)
    (c ^^^ b)

/-- Modelled from the spec: CRC-16 update for one byte, polynomial 0x8005,
no reflection, no final xor. -/
def crc16Update (c b : Nat) : Nat :=
  (List.range 8).foldl
    (fun acc _ =>
      if 2 ^ 15 ≤ acc then (acc * 2 ^^^ 0x8005) % 2 ^ 16 else acc * 2 % 2 ^ 16)
    (c ^^^ (b <<< 8))

/-- The value of a full byte given as 8 bits, most significant first. -/
def byteOfBits (bs : List Bool) : Nat :=
  bs.foldl (fun acc b => 2 * acc + (if b then 1 else 0)) 0

/-- The low `n` bits of `v`, most significant first. -/
def bitsOfNat (v n : Nat) : List Bool :=
  (List.range n).map fun i => v.testBit (n - 1 - i)

/-- Modelled from the spec: the `BitWriter` state.  `outBytes` is the byte
sink (a `bytes.Buffer` in all uses of the encoder, so writes never fail),
`bitBuf` the staging register of fewer than 8 pending bits (MSB first),
and `crc8`/`crc16` the running CRC accumulators. -/
structure BitWriter where
  outBytes : List Nat
  bitBuf : List Bool
  crc8 : Nat
  crc16 : Nat
deriving Repr, DecidableEq

/-- Modelled from the spec: `NewBitWriter` over an empty sink, with both
CRC accumulators reset. -/
def BitWriter.init : BitWriter := ⟨[], [], 0, 0⟩

/-- Emit a full byte to the sink and advance both CRC accumulators. -/
def emitByte (st : BitWriter) (b : Nat) : BitWriter :=
  ⟨st.outBytes ++ [b], st.bitBuf, crc8Update st.crc8 b, crc16Update st.crc16 b⟩

/-- Append one bit to the staging register, emitting a byte when it
fills. -/
def pushBit (st : BitWriter) (bit : Bool) : BitWriter :=
  let buf := st.bitBuf ++ [bit]
  if buf.length = 8 then
    ⟨st.outBytes ++ [byteOfBits buf], [],
     crc8Update st.crc8 (byteOfBits buf), crc16Update st.crc16 (byteOfBits buf)⟩
  else
    ⟨st.outBytes, buf, st.crc8, st.crc16⟩

/-- Modelled from the spec: `WriteBits` appends the low `n` bits of a
value, most significant bit first. -/
def writeBits (st : BitWriter) (v n : Nat) : BitWriter :=
  (bitsOfNat v n).foldl pushBit st

/-- Modelled from the spec: `WriteUnary` emits `q` one-bits followed by a
zero bit. -/
def writeUnary (st : BitWriter) (q : Nat) : BitWriter :=
  (List.replicate q true ++ [false]).foldl pushBit st

/-- The zig-zag signed-to-unsigned mapping used by Rice coding. -/
def zigzag (v : Int) : Nat :=
  if 0 ≤ v then (2 * v).toNat else (-2 * v - 1).toNat

/-- Modelled from the spec: `WriteSignedRice` zig-zag maps the value, then
writes the quotient by `2^k` in unary followed by the low `k` bits. -/
def writeSignedRice (st : BitWriter) (v : Int) (k : Nat) : BitWriter :=
  let u := zigzag v
  writeBits (writeUnary st (u >>> k)) u k

/-- Modelled from the spec: `Flush` pads any pending bits with zeros and
emits the byte; at a byte boundary it is a no-op. -/
def flushBW (st : BitWriter) : BitWriter :=
  if st.bitBuf.isEmpty then st
  else
    let b := byteOfBits (st.bitBuf ++ List.replicate (8 - st.bitBuf.length) false)
    ⟨st.outBytes ++ [b], [], crc8Update st.crc8 b, crc16Update st.crc16 b⟩

/-- The byte count of the FLAC UTF-8-style coding of `n`: the smallest
count whose capacity covers `n` (1 byte for 7 bits, `m ≥ 2` bytes for
`5m+1` bits). -/
def utf8Len (n : Nat) : Nat :=
  if n < 0x80 then 1
  else if n < 0x800 then 2
  else if n < 0x10000 then 3
  else if n < 0x200000 then 4
  else if n < 0x4000000 then 5
  else if n < 0x80000000 then 6
  else 7

/-- Modelled from the spec: `WriteUTF8`, FLAC's UTF-8-style frame-number
coding; one byte below `2^7`, otherwise a leading byte of `m` one-bits,
a zero bit and the top payload bits, followed by `10xxxxxx` continuation
bytes of 6 payload bits each. -/
def writeUTF8 (st : BitWriter) (n : Nat) : BitWriter :=
  let m := utf8Len n
  if m = 1 then writeBits st n 8
  else
    let lead := (256 - 2 ^ (8 - m)) + (n >>> (6 * (m - 1)))
    (List.range (m - 1)).foldl
      (fun st i => writeBits st (0x80 + (n >>> (6 * (m - 2 - i))) % 64) 8)
      (writeBits st lead 8)

/-- Modelled from the spec: `WriteByte` emits one byte directly; the
encoder only calls it at a byte boundary (right after a flush). -/
def writeByte (st : BitWriter) (b : Nat) : BitWriter := emitByte st b

/-- Modelled from the spec: `WriteUint16BE` emits a 16-bit big-endian
value as two bytes. -/
def writeUint16BE (st : BitWriter) (v : Nat) : BitWriter :=
  emitByte (emitByte st (v >>> 8 % 256)) (v % 256)

/-! ### Encoder core, translated from `pkg/flacenc/encoder.go` -/

/-- The encoder configuration fields of the Go `Encoder` struct
(`SampleRate`, `Channels`, `BitsPerSample`, `BlockSize`). -/
structure Encoder where
  sampleRate : Nat
  channels : Nat
  bitsPerSample : Nat
  blockSize : Nat
deriving Repr, DecidableEq

/-- `NewEncoder` from `encoder.go`: the block size defaults to 4096. -/
def NewEncoder (sampleRate channels bitsPerSample : Nat) : Encoder :=
  ⟨sampleRate, channels, bitsPerSample, 4096⟩

/-- The learned STREAMINFO extrema, with the initial values set by
`NewEncoder`: `minBlockSize = maxBlockSize = 4096`,
`minFrameSize = 0xFFFFFF`, `maxFrameSize = 0`. -/
structure StreamStats where
  minBlockSize : Nat
  maxBlockSize : Nat
  minFrameSize : Nat
  maxFrameSize : Nat
deriving Repr, DecidableEq

/-- Initial stats as set by `NewEncoder`. -/
def initStats : StreamStats := ⟨4096, 4096, 0xFFFFFF, 0⟩

/-- The per-frame stats update of `Encode` (lines 98-110): comparisons
are made after the Go conversions `uint32(frameSize)` and
`uint16(blockSize)`. -/
def updateStats (st : StreamStats) (frameSize blockSize : Nat) : StreamStats :=
  let fs := frameSize % 2 ^ 32
  let bs := blockSize % 2 ^ 16
  { minBlockSize := if bs < st.minBlockSize then bs else st.minBlockSize
    maxBlockSize := if bs > st.maxBlockSize then bs else st.maxBlockSize
    minFrameSize := if fs < st.minFrameSize then fs else st.minFrameSize
    maxFrameSize := if fs > st.maxFrameSize then fs else st.maxFrameSize }

/-- Two's-complement wrap of an integer into the `int32` range; the Go
residual arithmetic is performed on `int32`, and a chain of wrapping
additions equals the wrap of the exact sum. -/
def wrap32 (x : Int) : Int := (x + 2 ^ 31) % 2 ^ 32 - 2 ^ 31

/-- Indexing `samples[i]`; all Go accesses are in range, so the default
is never consulted where the model is used. -/
def sAt (l : List Int) (i : Nat) : Int := l.getD i 0

/-- `computeFixedResiduals` (lines 321-354).  Go's
`make([]int32, n-order)` panics when `n < order`, modelled as `none`.
The `switch` has no case beyond order 4, so other orders would leave the
zero-initialised slice. -/
def computeFixedResiduals (samples : List Int) (order : Nat) :
    Option (List Int) :=
  let n := samples.length
  if n < order then none
  else some ((List.range (n - order)).map fun j =>
    let i := j + order
    if order = 0 then sAt samples i
    else if order = 1 then wrap32 (sAt samples i - sAt samples (i - 1))
    else if order = 2 then
      wrap32 (sAt samples i - 2 * sAt samples (i - 1) + sAt samples (i - 2))
    else if order = 3 then
      wrap32 (sAt samples i - 3 * sAt samples (i - 1) +
        3 * sAt samples (i - 2) - sAt samples (i - 3))
    else if order = 4 then
      wrap32 (sAt samples i - 4 * sAt samples (i - 1) +
        6 * sAt samples (i - 2) - 4 * sAt samples (i - 3) +
        sAt samples (i - 4))
    else 0)

/-- The zig-zag magnitude summed by both `estimateRiceSize` and
`encodeRicePartition`: `r` for `r ≥ 0`, else `-r - 1`. -/
def zigzagMag (r : Int) : Nat :=
  if 0 ≤ r then r.toNat else (-r - 1).toNat

/-- The magnitude sum `S` over a residual sequence. -/
def riceSum (rs : List Int) : Nat :=
  rs.foldl (fun acc r => acc + zigzagMag r) 0

/-- The Go loop `for (1 << k) < int(avg) ... k++`, with fuel; the loop
index never exceeds 32 in reachable states, so fuel 64 is exact. -/
def kLoop (avg k fuel : Nat) : Nat :=
  match fuel with
  | 0 => k
  | fuel + 1 => if 2 ^ k < avg then kLoop avg (k + 1) fuel else k

/-- The Rice parameter computed identically in `estimateRiceSize`
(lines 363-380) and `encodeRicePartition` (lines 408-424): the average
magnitude is `int(float64(sum) / float64(len))`, i.e. the floor of the
quotient, then the smallest `k` with `2^k ≥ avg`, clamped to 14. -/
def riceParam (rs : List Int) : Nat :=
  let avg := riceSum rs / rs.length
  let k := kLoop avg 0 64
  if k > 14 then 14 else k

/-- `estimateRiceSize` (lines 357-396): zero for an empty sequence, else
the sum of `q + 1 + k` over the zig-zag mapped residuals. -/
def estimateRiceSize (rs : List Int) : Nat :=
  if rs.length = 0 then 0
  else
    let k := riceParam rs
    rs.foldl (fun acc r => acc + (zigzag r >>> k) + 1 + k) 0

/-- `encodeRicePartition` (lines 399-441): a two-bit method `00`, a
four-bit partition order `0000`, then for a non-empty sequence the
four-bit Rice parameter and the Rice-coded residuals. -/
def encodeRicePartition (bw : BitWriter) (rs : List Int) : BitWriter :=
  if rs.length = 0 then writeBits (writeBits bw 0 2) 0 4
  else
    let k := riceParam rs
    rs.foldl (fun bw r => writeSignedRice bw r k)
      (writeBits (writeBits (writeBits bw 0 2) 0 4) k 4)

/-- The Go conversion `uint32(s)` of an `int32` sample. -/
def toU32 (s : Int) : Nat := (s % 2 ^ 32).toNat

/-- One step of the best-order loop of `encodeSubframe`: strict
improvement only, so ties keep the earlier order. -/
def selStep (o c : Nat) (p : Nat × Nat) : Nat × Nat :=
  if c < p.2 then (o, c) else p

/-- The best-order loop of `encodeSubframe` (lines 259-269) unrolled over
orders 0..4, starting from `bestOrder = 0`, `bestSize = 2^63 - 1`. -/
def sel5 (c0 c1 c2 c3 c4 : Nat) : Nat × Nat :=
  selStep 4 c4 (selStep 3 c3 (selStep 2 c2 (selStep 1 c1
    (selStep 0 c0 (0, 2 ^ 63 - 1)))))

/-- The estimated Rice size for fixed order `o`; for the orders the
encoder tries on a block of at least 4 samples the residual computation
succeeds, so the default is never consulted. -/
def codeCost (samples : List Int) (o : Nat) : Nat :=
  estimateRiceSize ((computeFixedResiduals samples o).getD [])

/-- The outcome of subframe-encoding selection. -/
inductive SubframeChoice where
  | verbatim
  | fixed (order : Nat)
deriving Repr, DecidableEq

/-- The selection logic of `encodeSubframe` (lines 257-278): every order
0..4 is estimated (which panics, i.e. returns `none`, when the block has
fewer than 4 samples, since order `n+1 ≤ 4` then allocates a
negative-length slice), then verbatim wins only by strict improvement on
`len(samples) * BitsPerSample`. -/
def subframeChoice (e : Encoder) (samples : List Int) :
    Option SubframeChoice :=
  if samples.length < 4 then none
  else
    let p := sel5 (codeCost samples 0) (codeCost samples 1)
      (codeCost samples 2) (codeCost samples 3) (codeCost samples 4)
    if samples.length * e.bitsPerSample < p.2 then some .verbatim
    else some (.fixed p.1)

/-- `encodeVerbatimSubframe` (lines 281-296). -/
def encodeVerbatimSubframe (e : Encoder) (bw : BitWriter)
    (samples : List Int) : BitWriter :=
  samples.foldl (fun bw s => writeBits bw (toU32 s) e.bitsPerSample)
    (writeBits (writeBits (writeBits bw 0 1) 1 6) 0 1)

/-- `encodeFixedSubframe` (lines 299-318). -/
def encodeFixedSubframe (e : Encoder) (bw : BitWriter)
    (samples : List Int) (order : Nat) : BitWriter :=
  let bw := writeBits (writeBits (writeBits bw 0 1) (0x08 ||| order) 6) 0 1
  let bw := (samples.take order).foldl
    (fun bw s => writeBits bw (toU32 s) e.bitsPerSample) bw
  encodeRicePartition bw ((computeFixedResiduals samples order).getD [])

/-- `encodeSubframe` (lines 257-278): select, then emit. -/
def encodeSubframe (e : Encoder) (bw : BitWriter) (samples : List Int) :
    Option BitWriter :=
  match subframeChoice e samples with
  | none => none
  | some .verbatim => some (encodeVerbatimSubframe e bw samples)
  | some (.fixed o) => some (encodeFixedSubframe e bw samples o)

/-- `getBlockSizeCode` (lines 444-478). -/
def getBlockSizeCode (blockSize : Nat) : Nat :=
  if blockSize = 192 then 1
  else if blockSize = 576 then 2
  else if blockSize = 1152 then 3
  else if blockSize = 2304 then 4
  else if blockSize = 4608 then 5
  else if blockSize = 256 then 8
  else if blockSize = 512 then 9
  else if blockSize = 1024 then 10
  else if blockSize = 2048 then 11
  else if blockSize = 4096 then 12
  else if blockSize = 8192 then 13
  else if blockSize = 16384 then 14
  else if blockSize = 32768 then 15
  else if blockSize ≤ 256 then 6
  else 7

/-- `getSampleRateCode` (lines 480-512). -/
def getSampleRateCode (sampleRate : Nat) : Nat :=
  if sampleRate = 88200 then 1
  else if sampleRate = 176400 then 2
  else if sampleRate = 192000 then 3
  else if sampleRate = 8000 then 4
  else if sampleRate = 16000 then 5
  else if sampleRate = 22050 then 6
  else if sampleRate = 24000 then 7
  else if sampleRate = 32000 then 8
  else if sampleRate = 44100 then 9
  else if sampleRate = 48000 then 10
  else if sampleRate = 96000 then 11
  else if sampleRate % 1000 = 0 ∧ sampleRate / 1000 ≤ 255 then 12
  else if sampleRate ≤ 65535 then 13
  else 14

/-- `getSampleSizeCode` (lines 514-531): note the explicit case mapping
32 to the non-standard code 7. -/
def getSampleSizeCode (bitsPerSample : Nat) : Nat :=
  if bitsPerSample = 8 then 1
  else if bitsPerSample = 12 then 2
  else if bitsPerSample = 16 then 4
  else if bitsPerSample = 20 then 5
  else if bitsPerSample = 24 then 6
  else if bitsPerSample = 32 then 7
  else 0

/-- `encodeFrame` (lines 177-254): header with CRC-8, one subframe per
channel, byte alignment, CRC-16 footer; yields the frame's bytes
(`none` models a panic inside a subframe). -/
def encodeFrame (e : Encoder) (block : List (List Int)) (frameNum : Nat) :
    Option (List Nat) :=
  let blockSize := (block.headD []).length
  let bw := BitWriter.init
  let bw := writeBits bw 0x3FFE 14
  let bw := writeBits bw 0 1
  let bw := writeBits bw 0 1
  let bsc := getBlockSizeCode blockSize
  let bw := writeBits bw bsc 4
  let src := getSampleRateCode e.sampleRate
  let bw := writeBits bw src 4
  let bw := writeBits bw (e.channels - 1) 4
  let bw := writeBits bw (getSampleSizeCode e.bitsPerSample) 3
  let bw := writeBits bw 0 1
  let bw := writeUTF8 bw frameNum
  let bw :=
    if bsc = 6 then writeBits bw (blockSize - 1) 8
    else if bsc = 7 then writeBits bw (blockSize - 1) 16
    else bw
  let bw :=
    if src = 12 then writeBits bw (e.sampleRate / 1000) 8
    else if src = 13 then writeBits bw e.sampleRate 16
    else if src = 14 then writeBits bw (e.sampleRate / 10) 16
    else bw
  let bw := flushBW bw
  let bw := writeByte bw bw.crc8
  let r := block.foldl
    (fun (acc : Option BitWriter) ch => acc.bind fun bw => encodeSubframe e bw ch)
    (some bw)
  r.map fun bw =>
    let bw := flushBW bw
    (writeUint16BE bw bw.crc16).outBytes

/-- The size of block `k` in the `Encode` frame loop (lines 78-82). -/
def blockLen (spc bs k : Nat) : Nat := min bs (spc - k * bs)

/-- The deinterleaved block `k` of `Encode` (lines 84-91). -/
def blockAt (e : Encoder) (samples : List Int) (k : Nat) :
    List (List Int) :=
  let spc := samples.length / e.channels
  let offset := k * e.blockSize
  (List.range e.channels).map fun ch =>
    (List.range (blockLen spc e.blockSize k)).map fun i =>
      sAt samples ((offset + i) * e.channels + ch)

/-- The iteration count of the frame loop
`for offset := 0; offset < spc; offset += bs`. -/
def numBlocks (spc bs : Nat) : Nat := (spc + bs - 1) / bs

/-- The frame loop of `Encode` (lines 74-113): frames accumulate into the
intermediate buffer while the stats are updated; `none` models a panic.
With zero channels, Go's `len(samples) / e.Channels` (lines 47 and 75)
panics with a runtime integer divide-by-zero before any frame is
produced, so that case is `none` as well. -/
def encodeFrames (e : Encoder) (samples : List Int) :
    Option (List (List Nat) × StreamStats) :=
  if e.channels = 0 then none
  else
    let spc := samples.length / e.channels
    (List.range (numBlocks spc e.blockSize)).foldl
      (fun acc k => acc.bind fun p =>
        (encodeFrame e (blockAt e samples k) k).map fun fb =>
          (p.1 ++ [fb], updateStats p.2 fb.length (blockLen spc e.blockSize k)))
      (some ([], initStats))

/-- The bytes the MD5 loop of `Encode` (lines 50-71) hashes for one
sample: the `switch` covers only depths 8, 16, 24 and 32; for every other
depth nothing is written to the hash. -/
def sampleBytes (bps : Nat) (s : Int) : List Nat :=
  if bps = 8 then [toU32 s % 256]
  else if bps = 16 then [toU32 s % 256, toU32 s / 2 ^ 8 % 256]
  else if bps = 24 then
    [toU32 s % 256, toU32 s / 2 ^ 8 % 256, toU32 s / 2 ^ 16 % 256]
  else if bps = 32 then le4 (toU32 s)
  else []

/-- The full byte stream fed to the MD5 hash by `Encode`. -/
def hashInput (e : Encoder) (samples : List Int) : List Nat :=
  samples.flatMap (sampleBytes e.bitsPerSample)

/-- Big-endian 2-byte encoding. -/
def be2 (v : Nat) : List Nat := [v / 2 ^ 8 % 256, v % 256]

/-- Big-endian 3-byte encoding (as written byte-by-byte in
`writeStreamInfo`). -/
def be3 (v : Nat) : List Nat := [v / 2 ^ 16 % 256, v / 2 ^ 8 % 256, v % 256]

/-- The 34-byte STREAMINFO body of `writeStreamInfo` (lines 144-171):
min/max block size, min/max frame size, the packed 64-bit field
`[20: sample rate][3: channels-1][5: bps-1][36: total samples]` built by
shifted bitwise or on `uint64`, and the 16-byte MD5. -/
def streamInfoBody (e : Encoder) (st : StreamStats) (totalSamples : Nat)
    (md5sum : List Nat) : List Nat :=
  let packed := ((e.sampleRate <<< 44) ||| ((e.channels - 1) <<< 41) |||
    ((e.bitsPerSample - 1) <<< 36) ||| totalSamples) % 2 ^ 64
  be2 st.minBlockSize ++ be2 st.maxBlockSize ++
    be3 st.minFrameSize ++ be3 st.maxFrameSize ++
    ((List.range 8).map fun i => packed >>> ((7 - i) * 8) % 256) ++ md5sum

/-- The metadata block header written by `writeStreamInfo` (line 139). -/
def streamInfoHeaderBytes : List Nat := [0x80, 0x00, 0x00, 0x22]

/-- The ASCII bytes of the magic string written first by `Encode`. -/
def magicBytes : List Nat := [0x66, 0x4C, 0x61, 0x43]

/-- `Encode` (lines 42-132): hash the raw samples, encode all frames into
the buffer, then emit magic, STREAMINFO and the buffered frames.  `none`
models the panics — the negative-length slice allocation, and the
divide-by-zero on `len(samples) / e.Channels` at zero channels, both
carried by `encodeFrames`; with a `bytes.Buffer` sink no write error can
occur, so the Go `error` result is otherwise always `nil`. -/
def Encode (e : Encoder) (samples : List Int) : Option (List Nat) :=
  let ts := samples.length / e.channels
  let md5sum := md5 (hashInput e samples)
  (encodeFrames e samples).map fun p =>
    magicBytes ++ streamInfoHeaderBytes ++
      streamInfoBody e p.2 ts md5sum ++ p.1.flatten

/-- The emitted frames, when encoding succeeds. -/
def framesOf (e : Encoder) (samples : List Int) : List (List Nat) :=
  ((encodeFrames e samples).map Prod.fst).getD []

/-- The learned stats, when encoding succeeds. -/
def statsOf (e : Encoder) (samples : List Int) : StreamStats :=
  ((encodeFrames e samples).map Prod.snd).getD initStats

/-! ### Definitions taken from the spec's words, for comparison -/

/-- Modelled from the spec: section 4.5 step 2's serialization of the raw
PCM for the MD5 digest, with 12-bit and 20-bit samples packed into the
next larger container (16 and 24 bits). -/
def specSampleBytes (bps : Nat) (s : Int) : List Nat :=
  if bps = 8 then [toU32 s % 256]
  else if bps = 12 ∨ bps = 16 then [toU32 s % 256, toU32 s / 2 ^ 8 % 256]
  else if bps = 20 ∨ bps = 24 then
    [toU32 s % 256, toU32 s / 2 ^ 8 % 256, toU32 s / 2 ^ 16 % 256]
  else le4 (toU32 s)

/-- Modelled from the spec: the byte stream section 4.5 step 2 says the
MD5 digest is computed over. -/
def specSerialize (bps : Nat) (samples : List Int) : List Nat :=
  samples.flatMap (specSampleBytes bps)

/-- Modelled from the spec: section 4.2's estimated cost of a fixed-order
subframe, Rice bits plus `order * bits_per_sample` warmup bits plus an
8-bit subframe header plus a 10-bit Rice partition header. -/
def specCostFixed (e : Encoder) (samples : List Int) (o : Nat) : Nat :=
  codeCost samples o + o * e.bitsPerSample + 8 + 10

/-- Modelled from the spec: section 4.2's estimated cost of a verbatim
subframe, `8 + bs * bits_per_sample`. -/
def specCostVerbatim (e : Encoder) (samples : List Int) : Nat :=
  8 + samples.length * e.bitsPerSample

/-- A mono 16-bit 44.1 kHz encoder with the default block size. -/
def enc16 : Encoder := ⟨44100, 1, 16, 4096⟩

/-- A stereo 16-bit encoder with the default block size. -/
def enc2x16 : Encoder := ⟨44100, 2, 16, 4096⟩

/-- An encoder with the unsupported depth 7. -/
def enc7 : Encoder := ⟨44100, 2, 7, 4096⟩

/-- A mono 12-bit encoder with the default block size. -/
def enc12 : Encoder := ⟨44100, 1, 12, 4096⟩

/-- A mono 16-bit encoder with block size 16 (the smallest size the spec
allows). -/
def enc16bs16 : Encoder := ⟨44100, 1, 16, 16⟩

/-! ### Claim theorems -/

/-- C9, counterexample: the claim says the 3-bit sample-size code is 0
("read from STREAMINFO") for `bits_per_sample = 32`, but
`getSampleSizeCode` maps 32 to the non-standard code 7. -/
theorem c9_counterexample :
    getSampleSizeCode 32 = 7 ∧ getSampleSizeCode 32 ≠ 0 := by decide

/-- C9, amended: the sample-size code is 1, 2, 4, 5, 6 for depths 8, 12,
16, 20, 24, the non-standard 7 for depth 32, and 0 only for depths
outside this list. -/
theorem c9_sample_size_codes :
    getSampleSizeCode 8 = 1 ∧ getSampleSizeCode 12 = 2 ∧
    getSampleSizeCode 16 = 4 ∧ getSampleSizeCode 20 = 5 ∧
    getSampleSizeCode 24 = 6 ∧ getSampleSizeCode 32 = 7 ∧
    ∀ b, b ≠ 8 → b ≠ 12 → b ≠ 16 → b ≠ 20 → b ≠ 24 → b ≠ 32 →
      getSampleSizeCode b = 0 := by
  refine ⟨by decide, by decide, by decide, by decide, by decide, by decide, ?_⟩
  intro b h8 h12 h16 h20 h24 h32
  simp [getSampleSizeCode, h8, h12, h16, h20, h24, h32]

/-- C9, witness: the amended mapping applied at the unsupported depth
17. -/
theorem c9_sample_size_codes_witness : getSampleSizeCode 17 = 0 :=
  c9_sample_size_codes.2.2.2.2.2.2 17 (by decide) (by decide) (by decide)
    (by decide) (by decide) (by decide)

/-- C10: the residual arithmetic is carried out on 32-bit integers, so
for `bits_per_sample = 32` with near-clip samples within
`±(2^31 - 1)` the order-2 residual wraps: the exact binomial value is
8589934588, but the code produces -4. -/
theorem c10_overflow_at_32bit :
    computeFixedResiduals [2147483647, -2147483647, 2147483647] 2 =
      some [-4] ∧
    (2147483647 : Int) - 2 * (-2147483647 : Int) + 2147483647 =
      8589934588 ∧
    (-4 : Int) ≠ 8589934588 := by decide

/-- C4, counterexample: on the block `[1, 1, 1, 1, 1]` at 16 bits the
encoder selects Fixed order 4, although under the claimed cost model
(Rice bits plus warmup plus 8-bit header plus 10-bit partition header)
order 0 is strictly cheaper than order 4 and than Verbatim, so the
claimed selection rule would pick order 0. -/
theorem c4_counterexample :
    subframeChoice enc16 [1, 1, 1, 1, 1] = some (SubframeChoice.fixed 4) ∧
    specCostFixed enc16 [1, 1, 1, 1, 1] 0 <
      specCostFixed enc16 [1, 1, 1, 1, 1] 4 ∧
    specCostFixed enc16 [1, 1, 1, 1, 1] 0 <
      specCostVerbatim enc16 [1, 1, 1, 1, 1] := by decide

/-- C5, counterexample: for the all-zero input of 16 samples the single
block is all-zero, and the encoder selects Fixed order 4, not the claimed
Fixed order 0. -/
theorem c5_counterexample :
    blockAt enc16 (List.replicate 16 0) 0 = [List.replicate 16 (0 : Int)] ∧
    subframeChoice enc16 (List.replicate 16 0) =
      some (SubframeChoice.fixed 4) ∧
    subframeChoice enc16 (List.replicate 16 0) ≠
      some (SubframeChoice.fixed 0) := by decide

/-- C7, counterexample: a single all-zero block of 100 samples (shorter
than the configured block size 4096) yields `min_block_size = 100` but
`max_block_size = 4096`, the initial value never observed in any block,
so the claimed invariant `min == max` for single-block-size inputs
fails. -/
theorem c7_counterexample :
    statsOf enc16 (List.replicate 100 0) =
      ⟨100, 4096, 32, 32⟩ ∧
    (statsOf enc16 (List.replicate 100 0)).minBlockSize ≠
      (statsOf enc16 (List.replicate 100 0)).maxBlockSize := by decide

/-- C3, counterexample: `Encode` performs no validation: with
`len(samples) % channels = 1 ≠ 0` it succeeds rather than failing with
an InvalidInput error, and with the unsupported depth 7 it succeeds
rather than failing with an InvalidConfig error. -/
theorem c3_counterexample :
    ([0] : List Int).length % enc2x16.channels ≠ 0 ∧
    (Encode enc2x16 [0]).isSome = true ∧
    (Encode enc7 ([] : List Int)).isSome = true := by decide

/-- C2, counterexample: with block size 16 and 20 samples the final block
holds 4 samples per channel, which is fewer than the claimed threshold
of 5, yet `Encode` returns a result: no order 0..4 exceeds a block
length of 4, so no negative-length allocation happens. -/
theorem c2_counterexample :
    blockLen (List.replicate 20 (0 : Int)).length 16 1 = 4 ∧
    (Encode enc16bs16 (List.replicate 20 0)).isSome = true := by decide

/-- C8, counterexample: at 12 bits the MD5 switch has no case, so no
bytes are hashed; the spec's serialization packs the sample 1 into a
16-bit container, and the two digests differ, so the STREAMINFO md5
field is not the MD5 of the spec's serialization. -/
theorem c8_counterexample :
    hashInput enc12 [1] = [] ∧ specSerialize 12 [1] = [1, 0] ∧
    md5 (hashInput enc12 [1]) ≠ md5 (specSerialize 12 [1]) := by decide

/-- The search loop of the Rice-parameter computation finds the least
`k` with `2^k ≥ avg`, given fuel reaching a bound. -/
lemma kLoop_least (avg : Nat) (fuel : Nat) :
    ∀ k, (∀ j < k, 2 ^ j < avg) → avg ≤ 2 ^ (k + fuel) →
      avg ≤ 2 ^ kLoop avg k fuel ∧ ∀ j < kLoop avg k fuel, 2 ^ j < avg := by
  induction fuel with
  | zero =>
    intro k hk hfuel
    exact ⟨by simpa [kLoop] using hfuel, by simpa [kLoop] using hk⟩
  | succ n ih =>
    intro k hk hfuel
    rw [kLoop]
    split
    · refine ih (k + 1) ?_ ?_
      · intro j hj
        rcases Nat.lt_succ_iff_lt_or_eq.mp hj with h | h
        · exact hk j h
        · subst h; assumption
      · have : k + 1 + n = k + (n + 1) := by omega
        rw [this]; exact hfuel
    · exact ⟨by omega, hk⟩

/-- Each zig-zag magnitude of an `int32` value is below `2^31`. -/
lemma zigzagMag_le (r : Int) (h : -2 ^ 31 ≤ r ∧ r < 2 ^ 31) :
    zigzagMag r ≤ 2 ^ 31 - 1 := by
  unfold zigzagMag
  split <;> omega

/-- The magnitude sum over an `int32` residual list is at most the
length times the maximal magnitude. -/
lemma riceSum_le (rs : List Int) (h : ∀ r ∈ rs, -2 ^ 31 ≤ r ∧ r < 2 ^ 31) :
    riceSum rs ≤ rs.length * (2 ^ 31 - 1) := by
  unfold riceSum
  have main : ∀ (l : List Int) (a : Nat), (∀ r ∈ l, -2 ^ 31 ≤ r ∧ r < 2 ^ 31) →
      l.foldl (fun acc r => acc + zigzagMag r) a ≤ a + l.length * (2 ^ 31 - 1) := by
    intro l
    induction l with
    | nil => intro a _; simp
    | cons x xs ih =>
      intro a hl
      simp only [List.foldl_cons, List.length_cons]
      have hx := zigzagMag_le x (hl x (by simp))
      have := ih (a + zigzagMag x) (fun r hr => hl r (by simp [hr]))
      calc xs.foldl (fun acc r => acc + zigzagMag r) (a + zigzagMag x)
          ≤ a + zigzagMag x + xs.length * (2 ^ 31 - 1) := this
        _ ≤ a + (xs.length + 1) * (2 ^ 31 - 1) := by
            rw [Nat.add_mul]; omega
  simpa using main rs 0 h

/-- C6: for a non-empty `int32` residual sequence the Rice parameter used
by both the estimator and the emitter is the least `k` with
`2^k ≥ avg`, clamped to 14, where `avg` is the floor of `S / m` for the
zig-zag magnitude sum `S` and the sequence length `m` (the Go code
truncates the float average with `int(avg)`). -/
theorem c6_rice_parameter (rs : List Int) (hne : rs ≠ [])
    (hin : ∀ r ∈ rs, -2 ^ 31 ≤ r ∧ r < 2 ^ 31) :
    ∃ k0, (riceSum rs / rs.length ≤ 2 ^ k0 ∧
        ∀ j < k0, 2 ^ j < riceSum rs / rs.length) ∧
      riceParam rs = min k0 14 := by
  have hlen : 0 < rs.length := List.length_pos.mpr hne
  set avg := riceSum rs / rs.length with havg
  have havg_le : avg ≤ 2 ^ 31 - 1 := by
    have h1 : riceSum rs / rs.length ≤ rs.length * (2 ^ 31 - 1) / rs.length :=
      Nat.div_le_div_right (riceSum_le rs hin)
    have h2 : rs.length * (2 ^ 31 - 1) / rs.length = 2 ^ 31 - 1 :=
      Nat.mul_div_cancel_left _ hlen
    omega
  have hfuel : avg ≤ 2 ^ (0 + 64) := by
    have : (2 : Nat) ^ 31 - 1 ≤ 2 ^ 64 := by norm_num
    omega
  obtain ⟨h1, h2⟩ := kLoop_least avg 64 0 (by omega) hfuel
  refine ⟨kLoop avg 0 64, ⟨h1, h2⟩, ?_⟩
  simp only [riceParam, ← havg]
  split <;> omega

/-- C6, witness: the residuals `[3, -2]` have magnitude sum 4, average 2,
and the theorem yields the least parameter there. -/
theorem c6_rice_parameter_witness :
    ∃ k0, (riceSum [3, -2] / ([3, -2] : List Int).length ≤ 2 ^ k0 ∧
        ∀ j < k0, 2 ^ j < riceSum [3, -2] / ([3, -2] : List Int).length) ∧
      riceParam [3, -2] = min k0 14 :=
  c6_rice_parameter [3, -2] (by decide) (by decide)

/-- The STREAMINFO body is 34 bytes whenever the digest has 16. -/
lemma streamInfoBody_length (e : Encoder) (st : StreamStats) (ts : Nat)
    (m : List Nat) (hm : m.length = 16) :
    (streamInfoBody e st ts m).length = 34 := by
  simp [streamInfoBody, be2, be3, hm]

/-- C1: whenever frame encoding succeeds, the emitted stream is exactly
the magic `"fLaC"` in bytes 0..3, the metadata block header
`0x80 0x00 0x00 0x22` in bytes 4..7, the 34-byte STREAMINFO body, and
the concatenated frames, with total length `42 + Σ frame lengths`. -/
theorem c1_stream_layout (e : Encoder) (samples : List Int)
    (h : (encodeFrames e samples).isSome = true) :
    Encode e samples = some (magicBytes ++ streamInfoHeaderBytes ++
      streamInfoBody e (statsOf e samples) (samples.length / e.channels)
        (md5 (hashInput e samples)) ++ (framesOf e samples).flatten) ∧
    (streamInfoBody e (statsOf e samples) (samples.length / e.channels)
        (md5 (hashInput e samples))).length = 34 ∧
    ((Encode e samples).getD []).take 4 = magicBytes ∧
    (((Encode e samples).getD []).drop 4).take 4 = streamInfoHeaderBytes ∧
    ((Encode e samples).getD []).length =
      42 + ((framesOf e samples).map List.length).sum := by
  obtain ⟨p, hp⟩ := Option.isSome_iff_exists.mp h
  have hstats : statsOf e samples = p.2 := by simp [statsOf, hp]
  have hframes : framesOf e samples = p.1 := by simp [framesOf, hp]
  have hE : Encode e samples = some (magicBytes ++ streamInfoHeaderBytes ++
      streamInfoBody e p.2 (samples.length / e.channels)
        (md5 (hashInput e samples)) ++ p.1.flatten) := by
    simp [Encode, hp]
  have hbody := streamInfoBody_length e p.2 (samples.length / e.channels)
    (md5 (hashInput e samples)) (md5_length _)
  refine ⟨?_, ?_, ?_, ?_, ?_⟩
  · rw [hstats, hframes]; exact hE
  · rw [hstats]; exact hbody
  · simp only [hE, Option.getD_some]; rfl
  · simp only [hE, Option.getD_some]; rfl
  · simp only [hE, Option.getD_some, hframes, List.length_append,
      List.length_flatten, hbody]
    simp [magicBytes, streamInfoHeaderBytes]

/-- C1, witness: the layout at a concrete mono 16-bit block of four zero
samples. -/
theorem c1_stream_layout_witness :
    Encode enc16 [0, 0, 0, 0] = some (magicBytes ++ streamInfoHeaderBytes ++
      streamInfoBody enc16 (statsOf enc16 [0, 0, 0, 0])
        (([0, 0, 0, 0] : List Int).length / enc16.channels)
        (md5 (hashInput enc16 [0, 0, 0, 0])) ++
      (framesOf enc16 [0, 0, 0, 0]).flatten) ∧
    (streamInfoBody enc16 (statsOf enc16 [0, 0, 0, 0])
        (([0, 0, 0, 0] : List Int).length / enc16.channels)
        (md5 (hashInput enc16 [0, 0, 0, 0]))).length = 34 ∧
    ((Encode enc16 [0, 0, 0, 0]).getD []).take 4 = magicBytes ∧
    (((Encode enc16 [0, 0, 0, 0]).getD []).drop 4).take 4 =
      streamInfoHeaderBytes ∧
    ((Encode enc16 [0, 0, 0, 0]).getD []).length =
      42 + ((framesOf enc16 [0, 0, 0, 0]).map List.length).sum :=
  c1_stream_layout enc16 [0, 0, 0, 0] (by decide)

/-- A subframe on a block of fewer than 4 samples panics (order `n + 1`
allocates a negative-length residual slice), for any writer state. -/
lemma encodeSubframe_none (e : Encoder) (bw : BitWriter)
    (samples : List Int) (h : samples.length < 4) :
    encodeSubframe e bw samples = none := by
  simp [encodeSubframe, subframeChoice, h]

/-- On a block of at least 4 samples the selection always resolves. -/
lemma subframeChoice_isSome (e : Encoder) (samples : List Int)
    (h : 4 ≤ samples.length) :
    ∃ c, subframeChoice e samples = some c := by
  have h' : ¬ samples.length < 4 := by omega
  simp only [subframeChoice, h', if_false]
  split <;> exact ⟨_, rfl⟩

/-- A subframe on a block of at least 4 samples always yields a writer
state: selection and emission are total there. -/
lemma encodeSubframe_isSome (e : Encoder) (bw : BitWriter)
    (samples : List Int) (h : 4 ≤ samples.length) :
    (encodeSubframe e bw samples).isSome = true := by
  obtain ⟨c, hc⟩ := subframeChoice_isSome e samples h
  cases c <;> simp [encodeSubframe, hc]

/-- An `Option.bind` fold started from `none` stays `none`. -/
lemma foldl_bind_none_init {α β : Type} (g : β → α → Option α)
    (l : List β) :
    l.foldl (fun acc j => acc.bind (g j)) none = none := by
  induction l with
  | nil => rfl
  | cons x xs ih => simpa using ih

/-- An `Option.bind` fold dies as soon as one element's step constantly
fails. -/
lemma foldl_bind_eq_none {α β : Type} (g : β → α → Option α) (l : List β)
    (init : Option α) (k : β) (hk : k ∈ l) (hnone : ∀ a, g k a = none) :
    l.foldl (fun acc j => acc.bind (g j)) init = none := by
  induction l generalizing init with
  | nil => cases hk
  | cons x xs ih =>
    rw [List.foldl_cons]
    rcases List.mem_cons.mp hk with h | h
    · subst h
      have h0 : init.bind (g k) = none := by
        cases init <;> simp [hnone]
      rw [h0]
      exact foldl_bind_none_init g xs
    · exact ih _ h

/-- An `Option.bind` fold succeeds when the initial value does and every
step of the list always does. -/
lemma foldl_bind_isSome {α β : Type} (g : β → α → Option α) (l : List β)
    (init : Option α) (hinit : init.isSome = true)
    (hstep : ∀ k ∈ l, ∀ a, (g k a).isSome = true) :
    (l.foldl (fun acc j => acc.bind (g j)) init).isSome = true := by
  induction l generalizing init with
  | nil => simpa using hinit
  | cons x xs ih =>
    rw [List.foldl_cons]
    obtain ⟨a, ha⟩ := Option.isSome_iff_exists.mp hinit
    subst ha
    refine ih _ ?_ (fun k hk => hstep k (by simp [hk]))
    simpa using hstep x (by simp) a

/-- An `Option.bind` fold preserves an invariant along always-successful
steps. -/
lemma foldl_bind_pred {α β : Type} (g : β → α → Option α) (P : α → Prop)
    (l : List β) (init : Option α) (hinit : ∃ a, init = some a ∧ P a)
    (hstep : ∀ k ∈ l, ∀ a, P a → ∃ b, g k a = some b ∧ P b) :
    ∃ b, l.foldl (fun acc j => acc.bind (g j)) init = some b ∧ P b := by
  induction l generalizing init with
  | nil => simpa using hinit
  | cons x xs ih =>
    rw [List.foldl_cons]
    obtain ⟨a, ha, hPa⟩ := hinit
    subst ha
    obtain ⟨b, hb, hPb⟩ := hstep x (by simp) a hPa
    exact ih _ ⟨b, by simpa using hb, hPb⟩
      (fun k hk => hstep k (by simp [hk]))

/-- Every channel sequence of a deinterleaved block has the block's
length. -/
lemma blockAt_lengths (e : Encoder) (samples : List Int) (k : Nat) :
    ∀ ch ∈ blockAt e samples k,
      ch.length = blockLen (samples.length / e.channels) e.blockSize k := by
  intro ch hch
  simp only [blockAt, List.mem_map] at hch
  obtain ⟨i, _, rfl⟩ := hch
  simp

/-- A frame whose block channels all hold at least 4 samples encodes
successfully. -/
lemma encodeFrame_isSome (e : Encoder) (block : List (List Int)) (fn : Nat)
    (hlen : ∀ ch ∈ block, 4 ≤ ch.length) :
    (encodeFrame e block fn).isSome = true := by
  simp only [encodeFrame, Option.isSome_map']
  exact foldl_bind_isSome (fun ch bw => encodeSubframe e bw ch) block _
    (by simp) (fun ch hch bw => encodeSubframe_isSome e bw ch (hlen ch hch))

/-- A frame over a non-empty block whose first channel holds fewer than 4
samples panics. -/
lemma encodeFrame_eq_none (e : Encoder) (x : List Int)
    (xs : List (List Int)) (fn : Nat) (hx : x.length < 4) :
    encodeFrame e (x :: xs) fn = none := by
  simp only [encodeFrame, List.foldl_cons, Option.some_bind,
    encodeSubframe_none e _ x hx]
  rw [foldl_bind_none_init (fun ch bw => encodeSubframe e bw ch) xs]
  rfl

/-- The frame loop runs exactly `spc / bs` times when the block size
divides the per-channel count. -/
lemma numBlocks_exact (spc bs : Nat) (hbs : 0 < bs) (h : spc % bs = 0) :
    numBlocks spc bs = spc / bs := by
  have hd := Nat.div_add_mod spc bs
  unfold numBlocks
  have h1 : spc + bs - 1 = bs * (spc / bs) + (bs - 1) := by omega
  rw [h1, Nat.mul_add_div hbs]
  have h2 : (bs - 1) / bs = 0 := Nat.div_eq_of_lt (by omega)
  omega

/-- The frame loop runs `spc / bs + 1` times when a remainder block
exists. -/
lemma numBlocks_rem (spc bs : Nat) (hbs : 0 < bs) (h : spc % bs ≠ 0) :
    numBlocks spc bs = spc / bs + 1 := by
  have hd := Nat.div_add_mod spc bs
  have hm : spc % bs < bs := Nat.mod_lt _ hbs
  unfold numBlocks
  have h1 : spc + bs - 1 = bs * (spc / bs) + (spc % bs + bs - 1) := by omega
  rw [h1, Nat.mul_add_div hbs]
  have h2 : (spc % bs + bs - 1) / bs = 1 := by
    apply Nat.div_eq_of_lt_le <;> omega
  omega

/-- Every non-final block of an exactly divided input is full. -/
lemma blockLen_full (spc bs k : Nat) (hbs : 0 < bs) (h : spc % bs = 0)
    (hk : k < spc / bs) : blockLen spc bs k = bs := by
  have hd := Nat.div_add_mod spc bs
  have hmul : bs * (k + 1) ≤ bs * (spc / bs) :=
    Nat.mul_le_mul_left bs (by omega)
  have hexp : bs * (k + 1) = bs * k + bs := by ring
  have hcomm : k * bs = bs * k := Nat.mul_comm k bs
  unfold blockLen
  omega

/-- The final block of an inexactly divided input has the remainder's
size. -/
lemma blockLen_rem (spc bs : Nat) (_hbs : 0 < bs) :
    blockLen spc bs (spc / bs) = min bs (spc % bs) := by
  have hd := Nat.div_add_mod spc bs
  have hcomm : spc / bs * bs = bs * (spc / bs) := Nat.mul_comm _ _
  unfold blockLen
  omega

/-- C2, amended: whenever the final block holds between 1 and 3 samples
per channel (that is, the per-channel count is not a multiple of the
block size and the remainder is below 4), `Encode` panics in
`computeFixedResiduals` — order 4 exceeds the block length, so
`make([]int32, n-order)` receives a negative length — and returns no
result.  A final block of exactly 4 samples is fine, so the claimed
threshold of 5 is wrong and 4 is the correct one. -/
theorem c2_small_final_block_panics (e : Encoder) (samples : List Int)
    (hch : 1 ≤ e.channels) (hbs : 4 ≤ e.blockSize)
    (hr1 : 1 ≤ samples.length / e.channels % e.blockSize)
    (hr3 : samples.length / e.channels % e.blockSize ≤ 3) :
    Encode e samples = none := by
  have hbs0 : 0 < e.blockSize := by omega
  set spc := samples.length / e.channels with hspc
  set bs := e.blockSize with hbsdef
  set K := spc / bs with hK
  have hnum : numBlocks spc bs = K + 1 := numBlocks_rem spc bs hbs0 (by omega)
  have hm : spc % bs < bs := Nat.mod_lt _ hbs0
  have hlast : blockLen spc bs K = spc % bs := by
    rw [hK, blockLen_rem spc bs hbs0]
    omega
  have hfail : encodeFrame e (blockAt e samples K) K = none := by
    have hlb : (blockAt e samples K).length = e.channels := by
      simp [blockAt]
    rcases hcase : blockAt e samples K with _ | ⟨x, xs⟩
    · rw [hcase] at hlb; simp at hlb; omega
    · have hxlen := blockAt_lengths e samples K x (by rw [hcase]; simp)
      rw [← hspc, ← hbsdef] at hxlen
      exact encodeFrame_eq_none e x xs K (by omega)
  have hEF : encodeFrames e samples = none := by
    simp only [encodeFrames]
    rw [if_neg (show ¬ e.channels = 0 by omega), hnum]
    exact foldl_bind_eq_none _ _ _ K (by rw [List.mem_range]; omega)
      (fun p => by simp [hfail])
  simp [Encode, hEF]

/-- C2, witness: 17 mono samples with block size 16 leave a final block
of 1 sample, and encoding yields no result. -/
theorem c2_small_final_block_panics_witness :
    Encode enc16bs16 (List.replicate 17 0) = none :=
  c2_small_final_block_panics enc16bs16 (List.replicate 17 0)
    (by decide) (by decide) (by decide) (by decide)

/-- C3, amended: `Encode` performs no validation at all — no
InvalidInput or InvalidConfig error exists in the code.  Whatever the
configuration — mismatched sample count, unsupported depth, channel
count or sample rate — encoding succeeds whenever at least one channel
is declared (zero channels panics on the integer division
`len(samples) / e.Channels`, line 47, again without an error value) and
the block size divides the per-channel sample count (so that the panic
of C2 cannot trigger). -/
theorem c3_no_validation (e : Encoder) (samples : List Int)
    (hch : 1 ≤ e.channels) (hbs : 4 ≤ e.blockSize)
    (hdiv : samples.length / e.channels % e.blockSize = 0) :
    (Encode e samples).isSome = true := by
  have hbs0 : 0 < e.blockSize := by omega
  set spc := samples.length / e.channels with hspc
  set bs := e.blockSize with hbsdef
  have hnum : numBlocks spc bs = spc / bs := numBlocks_exact spc bs hbs0 hdiv
  have hES : (encodeFrames e samples).isSome = true := by
    simp only [encodeFrames]
    rw [if_neg (show ¬ e.channels = 0 by omega), hnum]
    apply foldl_bind_isSome
    · simp
    · intro k hk p
      rw [List.mem_range] at hk
      have hfull : blockLen spc bs k = bs := blockLen_full spc bs k hbs0 hdiv hk
      have hsome : (encodeFrame e (blockAt e samples k) k).isSome = true := by
        apply encodeFrame_isSome
        intro ch hch
        have hc := blockAt_lengths e samples k ch hch
        rw [← hspc, ← hbsdef] at hc
        omega
      simpa [Option.isSome_map'] using hsome
  simpa [Encode, Option.isSome_map'] using hES

/-- C3, witness: one dangling sample over two channels — the length is
not divisible by the channel count, yet encoding succeeds (with an
unsupported depth of 7, at that). -/
theorem c3_no_validation_witness : (Encode enc7 [0]).isSome = true :=
  c3_no_validation enc7 [0] (by decide) (by decide) (by decide)

/-- C7, amended: the learned block-size extrema start at the constant
4096 (not at an observed block), and each observed block only lowers the
minimum or raises the maximum.  Consequently `min == max == 4096` holds
whenever every emitted block has exactly 4096 samples (in particular with
the default block size and a per-channel count divisible by 4096), but
for a single block shorter than 4096 the maximum keeps the never-observed
initial 4096 while the minimum becomes the observed size. -/
theorem c7_min_max_block (e : Encoder) (samples : List Int)
    (hch : 1 ≤ e.channels) (hbs : e.blockSize = 4096)
    (hdiv : samples.length / e.channels % e.blockSize = 0) :
    (encodeFrames e samples).map
      (fun p => (p.2.minBlockSize, p.2.maxBlockSize)) = some (4096, 4096) := by
  have hbs0 : 0 < e.blockSize := by omega
  set spc := samples.length / e.channels with hspc
  set bs := e.blockSize with hbsdef
  have hnum : numBlocks spc bs = spc / bs := numBlocks_exact spc bs hbs0 hdiv
  have hstep : ∀ k ∈ List.range (spc / bs),
      ∀ p : List (List Nat) × StreamStats,
      p.2.minBlockSize = 4096 ∧ p.2.maxBlockSize = 4096 →
      ∃ b, ((encodeFrame e (blockAt e samples k) k).map fun fb =>
          (p.1 ++ [fb], updateStats p.2 fb.length (blockLen spc bs k))) =
            some b ∧
        b.2.minBlockSize = 4096 ∧ b.2.maxBlockSize = 4096 := by
    intro k hk p hP
    rw [List.mem_range] at hk
    have hfull : blockLen spc bs k = bs := blockLen_full spc bs k hbs0 hdiv hk
    have hsome : (encodeFrame e (blockAt e samples k) k).isSome = true := by
      apply encodeFrame_isSome
      intro ch hch
      have hc := blockAt_lengths e samples k ch hch
      rw [← hspc, ← hbsdef] at hc
      omega
    obtain ⟨fb, hfb⟩ := Option.isSome_iff_exists.mp hsome
    refine ⟨(p.1 ++ [fb], updateStats p.2 fb.length (blockLen spc bs k)),
      by rw [hfb]; rfl, ?_, ?_⟩
    all_goals
      have h46 : blockLen spc bs k = 4096 := by rw [hfull, hbs]
      norm_num [updateStats, h46, hP.1, hP.2]
  obtain ⟨b, hb, hPb⟩ := foldl_bind_pred
    (fun k p => (encodeFrame e (blockAt e samples k) k).map fun fb =>
      (p.1 ++ [fb], updateStats p.2 fb.length (blockLen spc bs k)))
    (fun p => p.2.minBlockSize = 4096 ∧ p.2.maxBlockSize = 4096)
    (List.range (spc / bs)) (some ([], initStats))
    ⟨([], initStats), rfl, by constructor <;> rfl⟩ hstep
  have hEF : encodeFrames e samples =
      (List.range (spc / bs)).foldl
        (fun acc k => acc.bind fun p =>
          (encodeFrame e (blockAt e samples k) k).map fun fb =>
            (p.1 ++ [fb], updateStats p.2 fb.length (blockLen spc bs k)))
        (some ([], initStats)) := by
    simp only [encodeFrames]
    rw [if_neg (show ¬ e.channels = 0 by omega), hnum]
  rw [hEF, hb]
  simp [hPb.1, hPb.2]

/-- C7, witness: the empty input has zero blocks, all (vacuously) of size
4096, and the learned extrema coincide at 4096. -/
theorem c7_min_max_block_witness :
    (encodeFrames enc16 ([] : List Int)).map
      (fun p => (p.2.minBlockSize, p.2.maxBlockSize)) = some (4096, 4096) :=
  c7_min_max_block enc16 [] (by decide) (by decide) (by decide)

/-- The best-order loop returns the first order attaining the minimal
estimate, with its estimate. -/
lemma sel5_spec (c0 c1 c2 c3 c4 : Nat) (h0 : c0 < 2 ^ 63 - 1)
    (h1 : c1 < 2 ^ 63 - 1) (h2 : c2 < 2 ^ 63 - 1) (h3 : c3 < 2 ^ 63 - 1)
    (h4 : c4 < 2 ^ 63 - 1) :
    (sel5 c0 c1 c2 c3 c4 = (0, c0) ∧ c0 ≤ c1 ∧ c0 ≤ c2 ∧ c0 ≤ c3 ∧ c0 ≤ c4) ∨
    (sel5 c0 c1 c2 c3 c4 = (1, c1) ∧ c1 < c0 ∧ c1 ≤ c2 ∧ c1 ≤ c3 ∧ c1 ≤ c4) ∨
    (sel5 c0 c1 c2 c3 c4 = (2, c2) ∧ c2 < c0 ∧ c2 < c1 ∧ c2 ≤ c3 ∧ c2 ≤ c4) ∨
    (sel5 c0 c1 c2 c3 c4 = (3, c3) ∧ c3 < c0 ∧ c3 < c1 ∧ c3 < c2 ∧ c3 ≤ c4) ∨
    (sel5 c0 c1 c2 c3 c4 = (4, c4) ∧ c4 < c0 ∧ c4 < c1 ∧ c4 < c2 ∧ c4 < c3) := by
  simp only [sel5, selStep]
  split_ifs <;> simp_all <;> omega

/-- The Rice parameter is clamped to at most 14. -/
lemma riceParam_le (rs : List Int) : riceParam rs ≤ 14 := by
  simp only [riceParam]
  split <;> omega

/-- A right shift never increases a natural number. -/
lemma shiftRight_le_self (n k : Nat) : n >>> k ≤ n := by
  rw [Nat.shiftRight_eq_div_pow]
  exact Nat.div_le_self _ _

/-- The full zig-zag value of an `int32` is below `2^32`. -/
lemma zigzag_le (r : Int) (h : -2 ^ 31 ≤ r ∧ r < 2 ^ 31) :
    zigzag r ≤ 2 ^ 32 - 1 := by
  unfold zigzag
  split <;> omega

/-- Folding a bounded per-item cost adds at most the length times the
bound. -/
lemma foldl_add3_le (f : Int → Nat) (kk M : Nat) :
    ∀ (l : List Int) (a : Nat), (∀ r ∈ l, f r ≤ M) →
      l.foldl (fun acc r => acc + f r + 1 + kk) a ≤
        a + l.length * (M + 1 + kk) := by
  intro l
  induction l with
  | nil => intro a _; simp
  | cons x xs ih =>
    intro a h
    simp only [List.foldl_cons, List.length_cons]
    have hx := h x (by simp)
    calc xs.foldl (fun acc r => acc + f r + 1 + kk) (a + f x + 1 + kk)
        ≤ a + f x + 1 + kk + xs.length * (M + 1 + kk) :=
          ih _ (fun r hr => h r (by simp [hr]))
      _ ≤ a + (xs.length + 1) * (M + 1 + kk) := by
          rw [Nat.add_mul]; omega

/-- The Rice-size estimate over `int32` residuals is linearly bounded. -/
lemma estimateRiceSize_le (rs : List Int)
    (h : ∀ r ∈ rs, -2 ^ 31 ≤ r ∧ r < 2 ^ 31) :
    estimateRiceSize rs ≤ rs.length * (2 ^ 32 + 14) := by
  simp only [estimateRiceSize]
  split
  · exact Nat.zero_le _
  · have hk := riceParam_le rs
    have hb := foldl_add3_le (fun r => zigzag r >>> riceParam rs)
      (riceParam rs) (2 ^ 32 - 1) rs 0
      (fun r hr => by
        dsimp only
        exact le_trans (shiftRight_le_self _ _) (zigzag_le r (h r hr)))
    dsimp only at hb
    have hmono : rs.length * (2 ^ 32 - 1 + 1 + riceParam rs) ≤
        rs.length * (2 ^ 32 + 14) :=
      Nat.mul_le_mul_left _ (by omega)
    omega

/-- Wrapped 32-bit values lie in the `int32` range. -/
lemma wrap32_bounds (x : Int) : -2 ^ 31 ≤ wrap32 x ∧ wrap32 x < 2 ^ 31 := by
  unfold wrap32
  have h1 : 0 ≤ (x + 2 ^ 31) % 2 ^ 32 := Int.emod_nonneg _ (by norm_num)
  have h2 : (x + 2 ^ 31) % 2 ^ 32 < 2 ^ 32 := Int.emod_lt_of_pos _ (by norm_num)
  omega

/-- Indexing an `int32`-ranged list stays in range (the default 0 also
is). -/
lemma sAt_bounds (samples : List Int)
    (hin : ∀ s ∈ samples, -2 ^ 31 ≤ s ∧ s < 2 ^ 31) (i : Nat) :
    -2 ^ 31 ≤ sAt samples i ∧ sAt samples i < 2 ^ 31 := by
  unfold sAt
  rcases Nat.lt_or_ge i samples.length with h | h
  · rw [List.getD_eq_getElem _ _ h]
    exact hin _ (List.getElem_mem h)
  · rw [List.getD_eq_default _ _ h]
    norm_num

/-- Fixed residuals of `int32` samples stay in the `int32` range. -/
lemma computeFixedResiduals_bounds (samples : List Int) (o : Nat)
    (hin : ∀ s ∈ samples, -2 ^ 31 ≤ s ∧ s < 2 ^ 31) :
    ∀ r ∈ (computeFixedResiduals samples o).getD [],
      -2 ^ 31 ≤ r ∧ r < 2 ^ 31 := by
  intro r hr
  simp only [computeFixedResiduals] at hr
  by_cases hno : samples.length < o
  · rw [if_pos hno] at hr; simp at hr
  · rw [if_neg hno, Option.getD_some] at hr
    obtain ⟨j, _, rfl⟩ := List.mem_map.mp hr
    split_ifs
    · exact sAt_bounds samples hin _
    · exact wrap32_bounds _
    · exact wrap32_bounds _
    · exact wrap32_bounds _
    · exact wrap32_bounds _
    · norm_num

/-- The residual count equals the block length minus the order. -/
lemma computeFixedResiduals_length (samples : List Int) (o : Nat)
    (h : o ≤ samples.length) :
    ((computeFixedResiduals samples o).getD []).length =
      samples.length - o := by
  unfold computeFixedResiduals
  rw [if_neg (by omega), Option.getD_some]
  simp

/-- The Go `int64` estimate never reaches the initial best-size sentinel
for inputs of at most `2^20` samples. -/
lemma codeCost_lt (samples : List Int) (o : Nat) (ho : o ≤ samples.length)
    (hlen : samples.length ≤ 2 ^ 20)
    (hin : ∀ s ∈ samples, -2 ^ 31 ≤ s ∧ s < 2 ^ 31) :
    codeCost samples o < 2 ^ 63 - 1 := by
  unfold codeCost
  have hb := estimateRiceSize_le _ (computeFixedResiduals_bounds samples o hin)
  have hl := computeFixedResiduals_length samples o ho
  rw [hl] at hb
  have : (samples.length - o) * (2 ^ 32 + 14) ≤ 2 ^ 20 * (2 ^ 32 + 14) :=
    Nat.mul_le_mul_right _ (by omega)
  omega

/-- C4, amended: `encodeSubframe` minimizes the bare Rice-bit estimate
`Σ (q + 1 + k)` — with no warmup, subframe-header or partition-header
terms — over fixed orders 0..4 with ties to the smallest order, and
chooses Verbatim exactly when `bs * bits_per_sample` (with no 8-bit
header term) is strictly below the best fixed estimate. -/
theorem c4_selection_rule (e : Encoder) (samples : List Int)
    (h4 : 4 ≤ samples.length) (hlen : samples.length ≤ 2 ^ 20)
    (hin : ∀ s ∈ samples, -2 ^ 31 ≤ s ∧ s < 2 ^ 31) :
    ∃ b ≤ 4,
      subframeChoice e samples =
        some (if samples.length * e.bitsPerSample < codeCost samples b
          then SubframeChoice.verbatim else SubframeChoice.fixed b) ∧
      (∀ o ≤ 4, codeCost samples b ≤ codeCost samples o) ∧
      (∀ o < b, codeCost samples b < codeCost samples o) := by
  have hc : ∀ o, o ≤ 4 → codeCost samples o < 2 ^ 63 - 1 :=
    fun o ho => codeCost_lt samples o (by omega) hlen hin
  have h' : ¬ samples.length < 4 := by omega
  have hs := sel5_spec (codeCost samples 0) (codeCost samples 1)
    (codeCost samples 2) (codeCost samples 3) (codeCost samples 4)
    (hc 0 (by norm_num)) (hc 1 (by norm_num)) (hc 2 (by norm_num))
    (hc 3 (by norm_num)) (hc 4 (by norm_num))
  rcases hs with ⟨heq, hA, hB, hC, hD⟩ | ⟨heq, hA, hB, hC, hD⟩ |
    ⟨heq, hA, hB, hC, hD⟩ | ⟨heq, hA, hB, hC, hD⟩ | ⟨heq, hA, hB, hC, hD⟩
  · refine ⟨0, by omega, ?_, ?_, ?_⟩
    · simp only [subframeChoice, h', if_false, heq]
      split <;> rfl
    · intro o ho; interval_cases o <;> omega
    · intro o ho; omega
  · refine ⟨1, by omega, ?_, ?_, ?_⟩
    · simp only [subframeChoice, h', if_false, heq]
      split <;> rfl
    · intro o ho; interval_cases o <;> omega
    · intro o ho; interval_cases o <;> omega
  · refine ⟨2, by omega, ?_, ?_, ?_⟩
    · simp only [subframeChoice, h', if_false, heq]
      split <;> rfl
    · intro o ho; interval_cases o <;> omega
    · intro o ho; interval_cases o <;> omega
  · refine ⟨3, by omega, ?_, ?_, ?_⟩
    · simp only [subframeChoice, h', if_false, heq]
      split <;> rfl
    · intro o ho; interval_cases o <;> omega
    · intro o ho; interval_cases o <;> omega
  · refine ⟨4, by omega, ?_, ?_, ?_⟩
    · simp only [subframeChoice, h', if_false, heq]
      split <;> rfl
    · intro o ho; interval_cases o <;> omega
    · intro o ho; interval_cases o <;> omega

/-- Indexing an all-zero list yields zero. -/
lemma sAt_replicate_zero (n i : Nat) :
    sAt (List.replicate n (0 : Int)) i = 0 := by
  unfold sAt
  rcases Nat.lt_or_ge i n with h | h
  · rw [List.getD_eq_getElem _ _ (by simpa using h)]
    simp
  · rw [List.getD_eq_default _ _ (by simpa using h)]

/-- Fixed residuals of an all-zero block are all zero, at every order the
encoder tries. -/
lemma computeFixedResiduals_replicate_zero (n o : Nat) (ho : o ≤ 4)
    (hn : o ≤ n) :
    computeFixedResiduals (List.replicate n (0 : Int)) o =
      some (List.replicate (n - o) 0) := by
  simp only [computeFixedResiduals, List.length_replicate]
  rw [if_neg (by omega)]
  congr 1
  rw [List.eq_replicate_iff]
  refine ⟨by simp, ?_⟩
  intro b hb
  obtain ⟨j, _, rfl⟩ := List.mem_map.mp hb
  simp only [sAt_replicate_zero]
  split_ifs <;> norm_num [wrap32]

/-- The magnitude sum of an all-zero sequence is zero. -/
lemma riceSum_replicate_zero (m : Nat) :
    riceSum (List.replicate m (0 : Int)) = 0 := by
  unfold riceSum
  induction m with
  | zero => rfl
  | succ k ih =>
    rw [List.replicate_succ, List.foldl_cons]
    simpa [zigzagMag] using ih

/-- The Rice parameter of an all-zero sequence is zero. -/
lemma riceParam_replicate_zero (m : Nat) :
    riceParam (List.replicate m (0 : Int)) = 0 := by
  simp only [riceParam, riceSum_replicate_zero, Nat.zero_div]
  rfl

/-- The Rice-size estimate of an all-zero sequence is one bit per
residual. -/
lemma estimateRiceSize_replicate_zero (m : Nat) :
    estimateRiceSize (List.replicate m (0 : Int)) = m := by
  simp only [estimateRiceSize, riceParam_replicate_zero,
    List.length_replicate]
  rcases Nat.eq_zero_or_pos m with rfl | hm
  · simp
  · rw [if_neg (by omega)]
    have main : ∀ (j : Nat) (a : Nat),
        (List.replicate j (0 : Int)).foldl
          (fun acc r => acc + zigzag r >>> 0 + 1 + 0) a = a + j := by
      intro j
      induction j with
      | zero => intro a; simp
      | succ i ih =>
        intro a
        rw [List.replicate_succ, List.foldl_cons, ih]
        norm_num [zigzag]
        omega
    simpa using main m 0

/-- C5, amended: for every all-zero block (of any length at least 4, with
any positive bit depth) the encoder selects FIXED order 4 — each higher
order drops one residual and every zero residual costs one estimated bit,
so the estimates strictly decrease with the order — with a zero
Rice-parameter single partition; the claimed order 0 is never selected
for blocks longer than 4 samples. -/
theorem c5_zero_input_selection (e : Encoder) (n : Nat) (h4 : 4 ≤ n)
    (hn : n < 2 ^ 63 - 1) (hbps : 1 ≤ e.bitsPerSample) :
    subframeChoice e (List.replicate n 0) = some (SubframeChoice.fixed 4) ∧
    riceParam ((computeFixedResiduals (List.replicate n 0) 4).getD []) =
      0 := by
  have hcost : ∀ o, o ≤ 4 → codeCost (List.replicate n 0) o = n - o := by
    intro o ho
    unfold codeCost
    rw [computeFixedResiduals_replicate_zero n o ho (by omega),
      Option.getD_some, estimateRiceSize_replicate_zero]
  constructor
  · have h' : ¬ n < 4 := by omega
    simp only [subframeChoice, List.length_replicate, h', if_false]
    rw [hcost 0 (by norm_num), hcost 1 (by norm_num), hcost 2 (by norm_num),
      hcost 3 (by norm_num), hcost 4 (by norm_num), Nat.sub_zero]
    have hs := sel5_spec n (n - 1) (n - 2) (n - 3) (n - 4)
      (by omega) (by omega) (by omega) (by omega) (by omega)
    have hsel : sel5 n (n - 1) (n - 2) (n - 3) (n - 4) = (4, n - 4) := by
      rcases hs with ⟨h, _⟩ | ⟨h, _⟩ | ⟨h, _⟩ | ⟨h, _⟩ | ⟨h, _⟩ <;>
        first
          | exact h
          | (exfalso; omega)
    rw [hsel]
    have hmul : n ≤ n * e.bitsPerSample := Nat.le_mul_of_pos_right n (by omega)
    rw [if_neg (show ¬ n * e.bitsPerSample < (4, n - 4).2 by
      simp only; omega)]
  · rw [computeFixedResiduals_replicate_zero n 4 (le_refl 4) (by omega),
      Option.getD_some]
    exact riceParam_replicate_zero (n - 4)

/-- C5, witness: the amended selection at 16 zero samples, 16-bit
mono. -/
theorem c5_zero_input_selection_witness :
    subframeChoice enc16 (List.replicate 16 0) =
      some (SubframeChoice.fixed 4) ∧
    riceParam ((computeFixedResiduals (List.replicate 16 0) 4).getD []) =
      0 :=
  c5_zero_input_selection enc16 16 (by decide) (by norm_num) (by decide)

/-- C4, witness: the amended rule at the concrete block `[1,1,1,1,1]`. -/
theorem c4_selection_rule_witness :
    ∃ b ≤ 4,
      subframeChoice enc16 [1, 1, 1, 1, 1] =
        some (if ([1, 1, 1, 1, 1] : List Int).length * enc16.bitsPerSample <
            codeCost [1, 1, 1, 1, 1] b
          then SubframeChoice.verbatim else SubframeChoice.fixed b) ∧
      (∀ o ≤ 4, codeCost [1, 1, 1, 1, 1] b ≤ codeCost [1, 1, 1, 1, 1] o) ∧
      (∀ o < b, codeCost [1, 1, 1, 1, 1] b < codeCost [1, 1, 1, 1, 1] o) :=
  c4_selection_rule enc16 [1, 1, 1, 1, 1] (by decide) (by norm_num)
    (by decide)

/-- At the depths the MD5 switch covers, the hashed bytes equal the
spec's serialization. -/
lemma sampleBytes_eq_spec (bps : Nat) (s : Int)
    (h : bps = 8 ∨ bps = 16 ∨ bps = 24 ∨ bps = 32) :
    sampleBytes bps s = specSampleBytes bps s := by
  rcases h with rfl | rfl | rfl | rfl <;> rfl

/-- C8, amended: for `bits_per_sample` in 8, 16, 24 and 32 the md5 field
of STREAMINFO is the MD5 digest of the raw PCM serialized little-endian
at the declared depth exactly as claimed; but at depths 12 and 20 the
MD5 switch has no case, so no bytes at all are hashed and the md5 field
is the digest of the empty stream, not of samples packed into 16- or
24-bit containers. -/
theorem c8_md5_serialization (e : Encoder) (samples : List Int) :
    (e.bitsPerSample = 8 ∨ e.bitsPerSample = 16 ∨ e.bitsPerSample = 24 ∨
        e.bitsPerSample = 32 →
      md5 (hashInput e samples) =
        md5 (specSerialize e.bitsPerSample samples)) ∧
    (e.bitsPerSample = 12 ∨ e.bitsPerSample = 20 →
      hashInput e samples = []) := by
  constructor
  · intro h
    unfold hashInput specSerialize
    congr 1
    induction samples with
    | nil => rfl
    | cons x xs ih =>
      simp only [List.flatMap_cons, ih, sampleBytes_eq_spec _ x h]
  · intro h
    unfold hashInput
    have hz : ∀ s : Int, sampleBytes e.bitsPerSample s = [] := by
      intro s
      rcases h with h | h <;> simp [sampleBytes, h]
    induction samples with
    | nil => rfl
    | cons x xs ih => simp only [List.flatMap_cons, hz, ih, List.nil_append]

/-- C8, witness: the covered 16-bit depth digests the serialization, and
the uncovered 12-bit depth hashes nothing. -/
theorem c8_md5_serialization_witness :
    md5 (hashInput enc16 [5, -3]) =
      md5 (specSerialize enc16.bitsPerSample [5, -3]) ∧
    hashInput enc12 [7] = [] :=
  ⟨(c8_md5_serialization enc16 [5, -3]).1 (by decide),
   (c8_md5_serialization enc12 [7]).2 (by decide)⟩

end Flacenc
